import Mathlib

/-!
Verification of the byteforge container library.

This file gives a shallow embedding of the core data structures of the
repository — the internal resizable ring buffer
(`internal/datastructs/buffers/ring/ring.go`), the hash set
(`datastructs/set/set.go`), the parallel map primitive
(`functions/slices/map.go`) and the lock discipline of the concurrent
wrappers (`datastructs/buffers/ring/syncring.go`,
`datastructs/queue/syncqueue.go`, `datastructs/set/syncset.go`) — and
proves or refutes the specification's claims about them.

Go machine integers (`int`, 64-bit) are modelled as `Nat`: every index,
size and capacity manipulated by the code is non-negative in every
reachable state, and the quantities involved stay far below 2^63, so
overflow never matters for the stated properties; optional variadic
parameters (`capacity ...int`) are modelled as `Option Int` so that the
"provided but non-positive" case of the source is representable.
The Go zero value of the element type is modelled with `default` of an
`Inhabited` instance.
-/

namespace ByteForge

namespace RingBuf

/-- Model of `InternalRingBuffer[T]` (ring.go lines 13-18): a backing
array `data`, `head`/`tail` indices, logical `size` and `capacity`.
The Go slice `data` is a `List T` whose length plays the role of
`len(rb.data)`. -/
structure RB (T : Type) where
  data : List T
  head : Nat
  tail : Nat
  size : Nat
  capacity : Nat
  deriving Repr, DecidableEq

variable {T : Type} [Inhabited T]

/-- Model of `New[T](capacity ...int)` (ring.go lines 22-32):
`cap := 8; if len(capacity) > 0 && capacity[0] > 0 { cap = capacity[0] }`,
backing array of `cap` zero values. -/
def New (T : Type) [Inhabited T] (capacity : Option Int) : RB T :=
  let cap : Nat :=
    match capacity with
    | some c => if c > 0 then c.toNat else 8
    | none => 8
  ⟨List.replicate cap default, 0, 0, 0, cap⟩

/-- Model of `FromSlice[T](s, capacity ...int)` (ring.go lines 37-63):
`desiredCapacity := 8`; if a capacity is provided and `> 8` it is used,
else if `len(s) > 0` then `len(s)` is used; when
`desiredCapacity > len(s)` a fresh zero-filled array of that length is
allocated and `s` copied into its front, otherwise `data` is a clone of
`s` itself; `tail = size = len(s)`. -/
def FromSlice (s : List T) (capacity : Option Int) : RB T :=
  let desired : Nat :=
    match capacity with
    | some c => if c > 8 then c.toNat else if s.length > 0 then s.length else 8
    | none => if s.length > 0 then s.length else 8
  let data : List T :=
    if desired > s.length then s ++ List.replicate (desired - s.length) default
    else s
  ⟨data, 0, s.length, s.length, desired⟩

/-- Model of the `resize` method (ring.go lines 164-174): allocate
`newData := make([]T, newCap)` (zero values) and copy the `size` logical
elements — source index `(head+i) mod capacity` — to its front; then
`head = 0`, `tail = size`, `capacity = newCap`.  (When `i ≥ newCap` the
Go loop would panic on an out-of-range write; no call site reaches that
case, and the model simply leaves such positions out of the array.) -/
def resize (rb : RB T) (newCap : Nat) : RB T :=
  let newData : List T :=
    (List.range newCap).map fun i =>
      if i < rb.size then rb.data.getD ((rb.head + i) % rb.capacity) default
      else default
  ⟨newData, 0, rb.size, rb.size, newCap⟩

/-- The capacity-doubling loop of `Enqueue` (ring.go lines 84-88):
`for newCap < required { newCap *= 2 }`.  The `0 < newCap` guard is
required by Lean for termination; every call site passes
`newCap = 2 * capacity` with `capacity ≥ 1`, where the guard is
always true, so the model agrees with the Go loop on all reachable
inputs. -/
def growCap (newCap required : Nat) : Nat :=
  if h : 0 < newCap ∧ newCap < required then growCap (newCap * 2) required
  else newCap
termination_by required - newCap
decreasing_by omega

/-- The insertion step of `Enqueue`'s value loop (ring.go lines 92-96):
`data[tail] = value; tail = (tail + 1) % capacity; size++`. -/
def enqueueOne (rb : RB T) (value : T) : RB T :=
  { rb with
    data := rb.data.set rb.tail value
    tail := (rb.tail + 1) % rb.capacity
    size := rb.size + 1 }

/-- Model of `Enqueue(values ...T)` (ring.go lines 82-98): if
`size + len(values) > capacity`, resize to the doubled capacity produced
by the growth loop, then insert the values one at a time. -/
def Enqueue (rb : RB T) (values : List T) : RB T :=
  let required := rb.size + values.length
  let rb' := if required > rb.capacity then resize rb (growCap (rb.capacity * 2) required)
             else rb
  values.foldl enqueueOne rb'

/-- Model of `Dequeue()` (ring.go lines 103-118): on an empty buffer
return the zero value and `false`; otherwise read `data[head]`, advance
`head`, decrement `size`, and halve the capacity when `capacity > 1`
and the new `size ≤ capacity/4`.  The Go pair `(T, bool)` together with
the method's receiver mutation is modelled as `T × Bool × RB T`. -/
def Dequeue (rb : RB T) : T × Bool × RB T :=
  if rb.size = 0 then (default, false, rb)
  else
    let val := rb.data.getD rb.head default
    let rb' : RB T := { rb with head := (rb.head + 1) % rb.capacity, size := rb.size - 1 }
    let rb'' := if 1 < rb'.capacity ∧ rb'.size ≤ rb'.capacity / 4
                then resize rb' (rb'.capacity / 2) else rb'
    (val, true, rb'')

/-- Model of `Peek()` (ring.go lines 122-129). -/
def Peek (rb : RB T) : T × Bool :=
  if rb.size = 0 then (default, false)
  else (rb.data.getD rb.head default, true)

/-- Model of `ToSlice()` (ring.go lines 133-144): a fresh slice whose
`i`-th element is `data[(head+i) mod capacity]`. -/
def ToSlice (rb : RB T) : List T :=
  if rb.size = 0 then []
  else (List.range rb.size).map fun i => rb.data.getD ((rb.head + i) % rb.capacity) default

/-- Model of `Clone()` (ring.go lines 147-161): a fresh backing array of
the same capacity holding the logical elements unwrapped to its front,
`head = 0`, `tail = size`. -/
def Clone (rb : RB T) : RB T :=
  let newData : List T :=
    (List.range rb.capacity).map fun i =>
      if i < rb.size then rb.data.getD ((rb.head + i) % rb.capacity) default
      else default
  ⟨newData, 0, rb.size, rb.size, rb.capacity⟩

/-- `n` successive `Dequeue` calls, collecting the `(value, ok)` pairs. -/
def DequeueN (rb : RB T) : Nat → List (T × Bool) × RB T
  | 0 => ([], rb)
  | n + 1 =>
    let r := Dequeue rb
    let rest := DequeueN r.2.2 n
    ((r.1, r.2.1) :: rest.1, rest.2)

/-- Structural invariant of the ring buffer: positive capacity, size
within capacity, backing array of exactly `capacity` cells, `head` in
range, and `tail` the wrap of `head + size`.  All states reachable from
`New` satisfy it. -/
def Inv (rb : RB T) : Prop :=
  0 < rb.capacity ∧ rb.size ≤ rb.capacity ∧ rb.data.length = rb.capacity ∧
    rb.head < rb.capacity ∧ rb.tail = (rb.head + rb.size) % rb.capacity

instance (rb : RB T) : Decidable (Inv rb) :=
  decidable_of_iff (0 < rb.capacity ∧ rb.size ≤ rb.capacity ∧ rb.data.length = rb.capacity ∧
    rb.head < rb.capacity ∧ rb.tail = (rb.head + rb.size) % rb.capacity) Iff.rfl

end RingBuf

namespace SetOps

/-- Model of `Set[T]` (set.go lines 6-8).  The Go `map[T]struct{}` is
modelled as the list of its keys in iteration order; well-formed states
have no duplicate keys (`SNodup` below).  Go's map iteration order is
unspecified, so theorems that depend on the order quantify over it. -/
structure GoSet (α : Type) where
  items : List α
  deriving Repr, DecidableEq

/-- Well-formedness of the map model: a Go map has distinct keys. -/
def SNodup {α : Type} (s : GoSet α) : Prop := s.items.Nodup

instance {α : Type} [DecidableEq α] (s : GoSet α) : Decidable (SNodup s) :=
  List.nodupDecidable s.items

variable {α : Type} [DecidableEq α] [Inhabited α]

/-- The Go statement `m[item] = struct{}{}`: a no-op when the key is
present, otherwise the key joins the iteration order (placed last in
the model). -/
def mapInsert (l : List α) (item : α) : List α :=
  if item ∈ l then l else l ++ [item]

/-- Model of `New[T](size ...int)` (set.go lines 11-21); the capacity
hint only affects allocation, not contents. -/
def NewSet (α : Type) : GoSet α := ⟨[]⟩

/-- Model of `FromSlice` (set.go lines 24-34): successively insert the
elements of `data` into a fresh map. -/
def SetFromSlice (data : List α) : GoSet α := ⟨data.foldl mapInsert []⟩

/-- Model of `Contains` (set.go lines 37-41): map-key lookup. -/
def Contains (s : GoSet α) (item : α) : Bool := decide (item ∈ s.items)

/-- Model of `Push` (set.go lines 44-48). -/
def Push (s : GoSet α) (items : List α) : GoSet α := ⟨items.foldl mapInsert s.items⟩

/-- Model of `Pop` (set.go lines 53-61): `for item := range s.items`
returns the first key in iteration order, deletes it, and returns it
with `true`; an empty map falls through to the zero value and `false`. -/
def Pop (s : GoSet α) : α × Bool × GoSet α :=
  match s.items with
  | [] => (default, false, s)
  | x :: rest => (x, true, ⟨rest⟩)

/-- Model of `Peek` (set.go lines 66-73): like `Pop` without the
deletion. -/
def PeekSet (s : GoSet α) : α × Bool :=
  match s.items with
  | [] => (default, false)
  | x :: _ => (x, true)

/-- Model of `Size` (set.go lines 76-78). -/
def Size (s : GoSet α) : Nat := s.items.length

/-- Model of `Remove` (set.go lines 96-103): presence check, then
`delete`. -/
def Remove (s : GoSet α) (item : α) : Bool × GoSet α :=
  if Contains s item then (true, ⟨s.items.erase item⟩) else (false, s)

/-- Model of `Clone` (set.go lines 111-118): a fresh map with the same
contents. -/
def CloneSet (s : GoSet α) : GoSet α := ⟨s.items⟩

/-- Model of `Union` (set.go lines 122-128): clone the receiver, then
insert every key of `other`. -/
def Union (s other : GoSet α) : GoSet α :=
  ⟨other.items.foldl mapInsert (CloneSet s).items⟩

/-- Model of `Intersection` (set.go lines 131-146): swap so that the
smaller operand is iterated (`if s.Size() > other.Size()`), then keep
the keys present in the larger operand, accumulating into a fresh map. -/
def Intersection (s other : GoSet α) : GoSet α :=
  let p := if Size other < Size s then (other, s) else (s, other)
  ⟨p.1.items.foldl (fun acc item => if item ∈ p.2.items then mapInsert acc item else acc) []⟩

/-- Model of `Difference` (set.go lines 149-158): keys of the receiver
absent from `other`, accumulated into a fresh map. -/
def Difference (s other : GoSet α) : GoSet α :=
  ⟨s.items.foldl (fun acc item => if item ∈ other.items then acc else mapInsert acc item) []⟩

/-- Model of `SymmetricDifference` (set.go lines 161-179): the keys of
`s` absent from `other`, then the keys of `other` absent from `s`,
accumulated into a fresh map. -/
def SymmetricDifference (s other : GoSet α) : GoSet α :=
  ⟨other.items.foldl (fun acc item => if item ∈ s.items then acc else mapInsert acc item)
    (s.items.foldl (fun acc item => if item ∈ other.items then acc else mapInsert acc item) [])⟩

/-- Model of `IsSubsetOf` (set.go lines 182-190): every key of the
receiver is present in `other` (the Go loop returns `false` early). -/
def IsSubsetOf (s other : GoSet α) : Bool :=
  s.items.all fun item => decide (item ∈ other.items)

/-- Model of `Equals` (set.go lines 193-207): size comparison first,
then the one-directional element check. -/
def EqualsSet (s other : GoSet α) : Bool :=
  if Size s ≠ Size other then false
  else s.items.all fun item => decide (item ∈ other.items)

/-- Model of `ToSlice` (set.go lines 210-218). -/
def SetToSlice (s : GoSet α) : List α := s.items

end SetOps

namespace SetStore

/-- A heap of Go maps: `maps[i]` is the contents of the map with
reference identity `i`.  Used to state frame properties (which maps an
operation writes) that are invisible in the pure functional model. -/
structure Store (α : Type) where
  maps : List (List α)
  deriving Repr

variable {α : Type} [DecidableEq α]

/-- `make(map[T]struct{})`: a fresh map joins the heap; its identity is
the result. -/
def alloc (st : Store α) (m : List α) : Store α × Nat :=
  (⟨st.maps ++ [m]⟩, st.maps.length)

/-- Read the contents of map `i`. -/
def getMap (st : Store α) (i : Nat) : List α := st.maps.getD i []

/-- `m[item] = struct{}{}` performed on the map with identity `i`. -/
def insertAt (st : Store α) (i : Nat) (item : α) : Store α :=
  ⟨st.maps.set i (SetOps.mapInsert (getMap st i) item)⟩

/-- Store-level model of `Set.Union` (set.go lines 122-128): allocate
`result` as a copy of the receiver's map (`s.Clone()`), then insert
every key of `other` into `result`, writing no other map. -/
def unionOp (st : Store α) (s other : Nat) : Store α × Nat :=
  let a := alloc st (getMap st s)
  ((getMap st other).foldl (fun acc item => insertAt acc a.2 item) a.1, a.2)

/-- Store-level model of `Set.Intersection` (set.go lines 131-146):
allocate an empty `result` (`New[T]()`), iterate the smaller operand and
insert the keys found in the larger one into `result`. -/
def intersectionOp (st : Store α) (s other : Nat) : Store α × Nat :=
  let a := alloc st []
  let p := if (getMap st other).length < (getMap st s).length then (other, s) else (s, other)
  ((getMap st p.1).foldl
      (fun acc item => if item ∈ getMap st p.2 then insertAt acc a.2 item else acc) a.1,
    a.2)

/-- Store-level model of `Set.Difference` (set.go lines 149-158). -/
def differenceOp (st : Store α) (s other : Nat) : Store α × Nat :=
  let a := alloc st []
  ((getMap st s).foldl
      (fun acc item => if item ∈ getMap st other then acc else insertAt acc a.2 item) a.1,
    a.2)

/-- Store-level model of `Set.SymmetricDifference` (set.go lines
161-179): one fresh `result` map receiving both one-sided passes. -/
def symmetricDifferenceOp (st : Store α) (s other : Nat) : Store α × Nat :=
  let a := alloc st []
  let st1 := (getMap st s).foldl
    (fun acc item => if item ∈ getMap st other then acc else insertAt acc a.2 item) a.1
  ((getMap st other).foldl
      (fun acc item => if item ∈ getMap st s then acc else insertAt acc a.2 item) st1,
    a.2)

/-- Store-level model of `Set.IsSubsetOf` (set.go lines 182-190): a pure
read, the store is untouched. -/
def isSubsetOfOp (st : Store α) (s other : Nat) : Store α × Bool :=
  (st, (getMap st s).all fun item => decide (item ∈ getMap st other))

/-- Store-level model of `Set.Equals` (set.go lines 193-207): a pure
read, the store is untouched. -/
def equalsOp (st : Store α) (s other : Nat) : Store α × Bool :=
  (st,
    if (getMap st s).length ≠ (getMap st other).length then false
    else (getMap st s).all fun item => decide (item ∈ getMap st other))

end SetStore

namespace Slices

variable {T R : Type} [Inhabited T] [Inhabited R]

/-- Model of `Map` (map.go lines 19-26): `result[i] = f(s[i])` over a
fresh slice of the input's length. -/
def Map (s : List T) (f : T → R) : List R := s.map f

/-- The multiset of jobs a `ParallelMap` call produces: each index
`i < len(s)` is sent on the `jobs` channel exactly once, and the worker
that receives it sends back `(i, f(s[i]))` exactly once (map.go lines
63-82).  Listed here in index order; an actual run delivers them on the
`results` channel in an arbitrary order. -/
def jobResults (s : List T) (f : T → R) : List (Nat × R) :=
  (List.range s.length).map fun i => (i, f (s.getD i default))

/-- The collection loop of `ParallelMap` (map.go lines 89-92):
`items := make([]R, len(s))` and `items[result.index] = result.value`
for each received result, in the received order `res`. -/
def assemble (n : Nat) (res : List (Nat × R)) : List R :=
  res.foldl (fun items r => items.set r.1 r.2) (List.replicate n default)

/-- Model of `ParallelMap` (map.go lines 48-96).  `res` is the order in
which the `results` channel delivers the per-index results; because the
worker count is at least 1 (`runtime.GOMAXPROCS(0) ≥ 1` when the
argument is omitted or non-positive), every run delivers some
permutation of `jobResults s f`, whatever the worker count is.  An
empty input returns `[]R{}` before any worker is spawned. -/
def ParallelMap (s : List T) (f : T → R) (res : List (Nat × R)) : List R :=
  if s.length = 0 then [] else assemble s.length res

end Slices

namespace Wrappers

/-- How a public wrapper method guards its receiver: no lock at all, the
shared (`RLock`) side, or the exclusive (`Lock`) side of its
`sync.RWMutex`.  Every acquisition in the sources is paired with a
`defer ... Unlock` covering the whole call, so a single mode per
operation captures the discipline. -/
inductive LockMode where
  | none | shared | exclusive
  deriving Repr, DecidableEq

/-- The public operations of the concurrent wrappers: `SyncRingBuffer`
(syncring.go), `SyncQueue` (syncqueue.go), `SyncSet` (syncset.go), and
the conversion functions that read a concurrent instance to build a
plain one (`RingBuffer.FromSyncRingBuffer` in the public ring package,
`Queue.FromSyncQueue` in queue.go, `Set.FromSyncSet` in set.go's
package). -/
inductive WrapperOp where
  | rbLen | rbCap | rbIsEmpty | rbEnqueue | rbDequeue | rbPeek | rbToSlice | rbClone
  | qLen | qCap | qIsEmpty | qEnqueue | qDequeue | qPeek | qToSlice | qClone | qEquals
  | sContains | sPush | sPop | sPeek | sSize | sIsEmpty | sIter | sRemove | sClear | sClone
  | sUnion | sIntersection | sDifference | sSymmetricDifference | sIsSubsetOf | sEquals
  | sToSlice
  | ringFromSyncRingBuffer | queueFromSyncQueue | setFromSyncSet
  deriving Repr, DecidableEq, Fintype

/-- The lock each operation takes on the concurrent instance it reads,
transcribed from the sources: `RLock` ↦ `shared`, `Lock` ↦ `exclusive`,
no acquisition ↦ `none`.  For the binary operations (`qEquals`,
`sUnion`, …, `sEquals`) both operands are locked in address order with
the same mode.  `setFromSyncSet` delegates to `SyncSet.Clone`, which
takes `RLock`. -/
def lockMode : WrapperOp → LockMode
  | .rbLen => .shared
  | .rbCap => .shared
  | .rbIsEmpty => .shared
  | .rbEnqueue => .exclusive
  | .rbDequeue => .exclusive
  | .rbPeek => .exclusive
  | .rbToSlice => .exclusive
  | .rbClone => .none
  | .qLen => .shared
  | .qCap => .shared
  | .qIsEmpty => .shared
  | .qEnqueue => .exclusive
  | .qDequeue => .exclusive
  | .qPeek => .exclusive
  | .qToSlice => .exclusive
  | .qClone => .exclusive
  | .qEquals => .exclusive
  | .sContains => .shared
  | .sPush => .exclusive
  | .sPop => .exclusive
  | .sPeek => .shared
  | .sSize => .shared
  | .sIsEmpty => .shared
  | .sIter => .shared
  | .sRemove => .exclusive
  | .sClear => .exclusive
  | .sClone => .shared
  | .sUnion => .shared
  | .sIntersection => .shared
  | .sDifference => .shared
  | .sSymmetricDifference => .shared
  | .sIsSubsetOf => .shared
  | .sEquals => .shared
  | .sToSlice => .shared
  | .ringFromSyncRingBuffer => .none
  | .queueFromSyncQueue => .none
  | .setFromSyncSet => .shared

/-- Whether the operation mutates the wrapped instance it locks (the
semantic read/write classification, from the delegated core methods). -/
def isMutating : WrapperOp → Bool
  | .rbEnqueue | .rbDequeue | .qEnqueue | .qDequeue
  | .sPush | .sPop | .sRemove | .sClear => true
  | _ => false

end Wrappers

/-! ## Ring buffer lemmas -/

namespace RingBuf

variable {T : Type} [Inhabited T]

theorem toSlice_eq (rb : RB T) :
    ToSlice rb
      = (List.range rb.size).map fun i => rb.data.getD ((rb.head + i) % rb.capacity) default := by
  unfold ToSlice
  split
  · simp [*]
  · rfl

theorem length_toSlice (rb : RB T) : (ToSlice rb).length = rb.size := by
  rw [toSlice_eq]; simp

theorem resize_capacity (rb : RB T) (n : Nat) : (resize rb n).capacity = n := rfl

theorem resize_size (rb : RB T) (n : Nat) : (resize rb n).size = rb.size := rfl

theorem inv_resize {rb : RB T} {n : Nat} (h : Inv rb) (hlt : rb.size < n) :
    Inv (resize rb n) := by
  obtain ⟨h1, h2, h3, h4, h5⟩ := h
  refine ⟨show 0 < n by omega, show rb.size ≤ n by omega, by simp [resize],
    show 0 < n by omega, ?_⟩
  show rb.size = (0 + rb.size) % n
  rw [Nat.zero_add, Nat.mod_eq_of_lt hlt]

theorem toSlice_resize {rb : RB T} {n : Nat} (h : Inv rb) (hle : rb.size ≤ n) :
    ToSlice (resize rb n) = ToSlice rb := by
  rw [toSlice_eq, toSlice_eq]
  show (List.range rb.size).map _ = _
  apply List.map_congr_left
  intro i hi
  rw [List.mem_range] at hi
  have hin : i < n := by omega
  show ((List.range n).map _).getD ((0 + i) % n) default = _
  rw [Nat.zero_add, Nat.mod_eq_of_lt hin]
  simp [List.getD_eq_getElem?_getD, List.getElem?_map, List.getElem?_range hin, hi]

theorem inv_enqueueOne {rb : RB T} (h : Inv rb) (hlt : rb.size < rb.capacity) (v : T) :
    Inv (enqueueOne rb v) := by
  obtain ⟨h1, h2, h3, h4, h5⟩ := h
  refine ⟨h1, by simp [enqueueOne]; omega, by simp [enqueueOne, h3], by simp [enqueueOne, h4], ?_⟩
  show (rb.tail + 1) % rb.capacity = (rb.head + (rb.size + 1)) % rb.capacity
  rw [h5, Nat.mod_add_mod]
  rfl

theorem enqueueOne_capacity (rb : RB T) (v : T) : (enqueueOne rb v).capacity = rb.capacity := rfl

theorem enqueueOne_size (rb : RB T) (v : T) : (enqueueOne rb v).size = rb.size + 1 := rfl

theorem toSlice_enqueueOne {rb : RB T} (h : Inv rb) (hlt : rb.size < rb.capacity) (v : T) :
    ToSlice (enqueueOne rb v) = ToSlice rb ++ [v] := by
  obtain ⟨h1, h2, h3, h4, h5⟩ := h
  rw [toSlice_eq, toSlice_eq]
  show (List.range (rb.size + 1)).map _ = _
  rw [List.range_succ, List.map_append]
  congr 1
  · -- positions below `size` are untouched: the write lands at `tail`,
    -- whose offset from `head` is exactly `size`
    apply List.map_congr_left
    intro i hi
    rw [List.mem_range] at hi
    show (rb.data.set rb.tail v).getD ((rb.head + i) % rb.capacity) default = _
    have hne : (rb.head + i) % rb.capacity ≠ rb.tail := by
      rw [h5]
      intro heq
      have hmod : Nat.ModEq rb.capacity (rb.head + i) (rb.head + rb.size) := heq
      have hdvd := (Nat.modEq_iff_dvd' (by omega)).mp hmod
      have := Nat.le_of_dvd (by omega) hdvd
      omega
    simp only [List.getD_eq_getElem?_getD, List.getElem?_set_ne (Ne.symm hne)]
  · -- position `size` reads back the written value
    show [(rb.data.set rb.tail v).getD ((rb.head + rb.size) % rb.capacity) default] = [v]
    rw [← h5]
    have htl : rb.tail < rb.data.length := by
      rw [h3, h5]
      exact Nat.mod_lt _ h1
    simp [List.getD_eq_getElem?_getD, List.getElem?_set_eq_of_lt v htl]

theorem foldl_enqueueOne_spec (vs : List T) :
    ∀ rb : RB T, Inv rb → rb.size + vs.length ≤ rb.capacity →
      Inv (vs.foldl enqueueOne rb) ∧
      (vs.foldl enqueueOne rb).capacity = rb.capacity ∧
      (vs.foldl enqueueOne rb).size = rb.size + vs.length ∧
      ToSlice (vs.foldl enqueueOne rb) = ToSlice rb ++ vs := by
  induction vs with
  | nil => intro rb h _; exact ⟨h, rfl, by simp, by simp⟩
  | cons v vs ih =>
    intro rb h hcap
    have hlt : rb.size < rb.capacity := by simp at hcap; omega
    have h1 := inv_enqueueOne h hlt v
    have h2 : (enqueueOne rb v).size + vs.length ≤ (enqueueOne rb v).capacity := by
      rw [enqueueOne_size, enqueueOne_capacity]; simp at hcap ⊢; omega
    obtain ⟨ih1, ih2, ih3, ih4⟩ := ih (enqueueOne rb v) h1 h2
    refine ⟨ih1, by rw [List.foldl_cons, ih2, enqueueOne_capacity], ?_, ?_⟩
    · rw [List.foldl_cons, ih3, enqueueOne_size]; simp; omega
    · rw [List.foldl_cons, ih4, toSlice_enqueueOne h hlt v]
      simp

theorem growCap_spec (c r : Nat) (hc : 0 < c) :
    ∃ k, growCap c r = c * 2 ^ k ∧ r ≤ c * 2 ^ k ∧ ∀ j, j < k → c * 2 ^ j < r := by
  by_cases hlt : c < r
  · rw [growCap, dif_pos ⟨hc, hlt⟩]
    obtain ⟨k, hk1, hk2, hk3⟩ := growCap_spec (c * 2) r (by omega)
    have heq : ∀ m : Nat, c * 2 * 2 ^ m = c * 2 ^ (m + 1) := by
      intro m; rw [Nat.pow_succ]; ring
    refine ⟨k + 1, by rw [hk1, heq], by rw [← heq]; omega, ?_⟩
    intro j hj
    match j with
    | 0 => simpa using hlt
    | j' + 1 =>
      have := hk3 j' (by omega)
      rw [← heq]
      omega
  · rw [growCap, dif_neg (by omega)]
    exact ⟨0, by simp, by simp; omega, by omega⟩
termination_by r - c
decreasing_by omega

theorem growCap_ge {c r : Nat} (hc : 0 < c) : r ≤ growCap c r := by
  obtain ⟨k, h1, h2, _⟩ := growCap_spec c r hc
  omega

theorem growCap_ge_self {c r : Nat} (hc : 0 < c) : c ≤ growCap c r := by
  obtain ⟨k, h1, h2, _⟩ := growCap_spec c r hc
  have : c * 1 ≤ c * 2 ^ k := Nat.mul_le_mul_left c (Nat.one_le_two_pow)
  omega

theorem enqueue_def (rb : RB T) (vs : List T) :
    Enqueue rb vs
      = vs.foldl enqueueOne
          (if rb.size + vs.length > rb.capacity
           then resize rb (growCap (rb.capacity * 2) (rb.size + vs.length)) else rb) := rfl

theorem enqueue_spec {rb : RB T} (h : Inv rb) (vs : List T) :
    Inv (Enqueue rb vs) ∧
    (Enqueue rb vs).size = rb.size + vs.length ∧
    (Enqueue rb vs).capacity
      = (if rb.size + vs.length > rb.capacity
         then growCap (rb.capacity * 2) (rb.size + vs.length) else rb.capacity) ∧
    ToSlice (Enqueue rb vs) = ToSlice rb ++ vs := by
  have h1 := h.1
  rw [enqueue_def]
  by_cases hgrow : rb.size + vs.length > rb.capacity
  · have hvs : vs.length ≠ 0 := by
      intro hz
      rw [hz] at hgrow
      have := h.2.1
      omega
    have hge : rb.size + vs.length ≤ growCap (rb.capacity * 2) (rb.size + vs.length) :=
      growCap_ge (by omega)
    have hlt : rb.size < growCap (rb.capacity * 2) (rb.size + vs.length) := by omega
    have hinv := inv_resize h hlt
    have hslice := toSlice_resize h (Nat.le_of_lt hlt)
    obtain ⟨f1, f2, f3, f4⟩ :=
      foldl_enqueueOne_spec vs _ hinv (by rw [resize_size, resize_capacity]; omega)
    rw [if_pos hgrow]
    refine ⟨f1, ?_, ?_, ?_⟩
    · rw [f3, resize_size]
    · rw [f2, resize_capacity, if_pos hgrow]
    · rw [f4, hslice]
  · obtain ⟨f1, f2, f3, f4⟩ := foldl_enqueueOne_spec vs rb h (by omega)
    rw [if_neg hgrow]
    exact ⟨f1, f3, by rw [f2, if_neg hgrow], f4⟩

theorem toSlice_cons {rb : RB T} (h : Inv rb) (hpos : 0 < rb.size) :
    ToSlice rb
      = rb.data.getD rb.head default ::
        (List.range (rb.size - 1)).map
          (fun i => rb.data.getD ((rb.head + 1 + i) % rb.capacity) default) := by
  obtain ⟨h1, h2, h3, h4, h5⟩ := h
  rw [toSlice_eq]
  obtain ⟨m, hm⟩ : ∃ m, rb.size = m + 1 := ⟨rb.size - 1, by omega⟩
  rw [hm, List.range_succ_eq_map, List.map_cons, List.map_map]
  congr 1
  · rw [Nat.add_zero, Nat.mod_eq_of_lt h4]
  · simp only [hm, Nat.add_sub_cancel]
    apply List.map_congr_left
    intro i _
    show rb.data.getD ((rb.head + Nat.succ i) % rb.capacity) default = _
    congr 2
    omega

theorem dequeue_def (rb : RB T) (h : rb.size ≠ 0) :
    Dequeue rb
      = (rb.data.getD rb.head default, true,
         if 1 < rb.capacity ∧ rb.size - 1 ≤ rb.capacity / 4
         then resize { rb with head := (rb.head + 1) % rb.capacity, size := rb.size - 1 }
                (rb.capacity / 2)
         else { rb with head := (rb.head + 1) % rb.capacity, size := rb.size - 1 }) := by
  unfold Dequeue
  rw [if_neg h]

theorem dequeue_spec {rb : RB T} (h : Inv rb) (hpos : 0 < rb.size) :
    (Dequeue rb).1 = (ToSlice rb).headD default ∧
    (Dequeue rb).2.1 = true ∧
    Inv (Dequeue rb).2.2 ∧
    ToSlice (Dequeue rb).2.2 = (ToSlice rb).tail ∧
    (Dequeue rb).2.2.size = rb.size - 1 ∧
    (Dequeue rb).2.2.capacity
      = (if 1 < rb.capacity ∧ rb.size - 1 ≤ rb.capacity / 4
         then rb.capacity / 2 else rb.capacity) := by
  have hcons := toSlice_cons h hpos
  obtain ⟨h1, h2, h3, h4, h5⟩ := h
  have hsz : rb.size ≠ 0 := by omega
  set rbMid : RB T :=
    { rb with head := (rb.head + 1) % rb.capacity, size := rb.size - 1 } with hmid
  have hcapMid : rbMid.capacity = rb.capacity := rfl
  have hsizeMid : rbMid.size = rb.size - 1 := rfl
  have hmidInv : Inv rbMid := by
    refine ⟨h1, by rw [hsizeMid, hcapMid]; omega, h3, ?_, ?_⟩
    · show (rb.head + 1) % rb.capacity < rb.capacity
      exact Nat.mod_lt _ h1
    · show rb.tail = ((rb.head + 1) % rb.capacity + (rb.size - 1)) % rb.capacity
      rw [h5, Nat.mod_add_mod]
      congr 1
      omega
  have hmidSlice : ToSlice rbMid
      = (List.range (rb.size - 1)).map
          (fun i => rb.data.getD ((rb.head + 1 + i) % rb.capacity) default) := by
    rw [toSlice_eq]
    apply List.map_congr_left
    intro i _
    show rb.data.getD (((rb.head + 1) % rb.capacity + i) % rb.capacity) default = _
    rw [Nat.mod_add_mod]
  have htail : (ToSlice rb).tail = ToSlice rbMid := by
    rw [hcons, hmidSlice, List.tail_cons]
  have hheadD : (ToSlice rb).headD default = rb.data.getD rb.head default := by
    rw [hcons]
    rfl
  rw [dequeue_def rb hsz, ← hmid]
  by_cases hshrink : 1 < rb.capacity ∧ rb.size - 1 ≤ rb.capacity / 4
  · rw [if_pos hshrink]
    have hlt : rbMid.size < rb.capacity / 2 := by rw [hsizeMid]; omega
    refine ⟨hheadD.symm, rfl, inv_resize hmidInv hlt, ?_, ?_, ?_⟩
    · show ToSlice (resize rbMid (rb.capacity / 2)) = _
      rw [toSlice_resize hmidInv (Nat.le_of_lt hlt), htail]
    · show (resize rbMid (rb.capacity / 2)).size = _
      rw [resize_size, hsizeMid]
    · show (resize rbMid (rb.capacity / 2)).capacity = _
      rw [resize_capacity, if_pos hshrink]
  · rw [if_neg hshrink]
    exact ⟨hheadD.symm, rfl, hmidInv, htail.symm, hsizeMid, by rw [if_neg hshrink, hcapMid]⟩

theorem inv_new (c : Option Int) : Inv (New T c) := by
  unfold New Inv
  match c with
  | none => simp
  | some v =>
    by_cases hv : v > 0
    · simp only [hv, if_true, gt_iff_lt]
      refine ⟨by omega, by omega, by simp, by omega, by simp⟩
    · simp [hv]

theorem toSlice_new (c : Option Int) : ToSlice (New T c) = [] := by
  rw [toSlice_eq]
  show (List.range 0).map _ = []
  simp

theorem dequeueN_run (l : List T) :
    ∀ rb : RB T, Inv rb → ToSlice rb = l →
      (DequeueN rb l.length).1 = l.map fun v => (v, true) := by
  induction l with
  | nil => intro rb _ _; rfl
  | cons v rest ih =>
    intro rb h hslice
    have hpos : 0 < rb.size := by
      have := length_toSlice rb
      rw [hslice] at this
      simp at this
      omega
    obtain ⟨d1, d2, d3, d4, _, _⟩ := dequeue_spec h hpos
    show ((Dequeue rb).1, (Dequeue rb).2.1) :: (DequeueN (Dequeue rb).2.2 rest.length).1 = _
    rw [d1, d2, hslice, ih (Dequeue rb).2.2 d3 (by rw [d4, hslice, List.tail_cons])]
    simp

theorem enqueue_groups (groups : List (List T)) :
    ∀ rb : RB T, Inv rb →
      Inv (groups.foldl Enqueue rb) ∧
      ToSlice (groups.foldl Enqueue rb) = ToSlice rb ++ groups.flatten := by
  induction groups with
  | nil => intro rb h; simpa using h
  | cons g groups ih =>
    intro rb h
    obtain ⟨e1, _, _, e4⟩ := enqueue_spec h g
    obtain ⟨i1, i2⟩ := ih (Enqueue rb g) e1
    refine ⟨?_, ?_⟩ <;> rw [List.foldl_cons]
    · exact i1
    · rw [i2, e4]
      simp

theorem growCap_16_9 : growCap 16 9 = 16 := by
  rw [growCap]
  norm_num

end RingBuf

/-! ## Claims C1-C4: ring buffer -/

open RingBuf in
/-- C1: for every list of values, enqueueing them into a ring buffer in
any grouping of `Enqueue` calls, starting from `New` with any initial
capacity argument, and then calling `Dequeue` once per value returns
exactly those values in enqueue order, each with a `true` success
flag. -/
theorem ring_fifo_law {T : Type} [Inhabited T] (c : Option Int) (groups : List (List T)) :
    (DequeueN (groups.foldl Enqueue (New T c)) groups.flatten.length).1
      = groups.flatten.map fun v => (v, true) := by
  obtain ⟨hInv, hSlice⟩ := enqueue_groups groups (New T c) (inv_new c)
  rw [toSlice_new] at hSlice
  exact dequeueN_run groups.flatten _ hInv (by simpa using hSlice)

open RingBuf in
/-- C2 (code bug): the state built by `FromSlice` from a 10-element
slice with requested capacity 9 violates the invariant
`size ≤ capacity` — the constructor records capacity 9 but size 10, so
not every reachable state satisfies the invariant. -/
theorem fromSlice_breaks_invariant :
    (FromSlice (List.range 10) (some 9)).size = 10 ∧
    (FromSlice (List.range 10) (some 9)).capacity = 9 ∧
    ¬ Inv (FromSlice (List.range 10) (some 9)) := by
  decide

open RingBuf in
/-- C3 (code bug): `FromSlice` on a 10-element slice with requested
capacity 9 yields capacity 9, not `max 9 10 = 10`, and its `ToSlice`
is not the source slice (positions are read modulo the too-small
capacity). -/
theorem fromSlice_capacity_bug :
    (FromSlice (List.range 10) (some 9)).capacity = 9 ∧
    (FromSlice (List.range 10) (some 9)).capacity ≠ max 9 (List.range 10).length ∧
    ToSlice (FromSlice (List.range 10) (some 9)) ≠ List.range 10 := by
  decide

open RingBuf in
/-- C4: exact resize thresholds.  `Enqueue` leaves the capacity
unchanged exactly when `size + len(values) ≤ capacity`; when it
resizes, the new capacity is the smallest repeated doubling
`capacity * 2^k` (`k ≥ 1`) that is at least `size + len(values)`.
`Dequeue` on a non-empty buffer halves the capacity exactly when
`capacity > 1` and the decremented size is at most `capacity/4`.
Concretely, enqueueing 9 elements into a default capacity-8 buffer
yields capacity exactly 16, and dequeuing a capacity-16 buffer down to
size 4 yields capacity exactly 8. -/
theorem resize_thresholds :
    (∀ (T : Type) [Inhabited T] (rb : RB T) (vs : List T), Inv rb →
      ((Enqueue rb vs).capacity = rb.capacity ↔ rb.size + vs.length ≤ rb.capacity)) ∧
    (∀ (T : Type) [Inhabited T] (rb : RB T) (vs : List T), Inv rb →
      rb.capacity < rb.size + vs.length →
      ∃ k, 1 ≤ k ∧ (Enqueue rb vs).capacity = rb.capacity * 2 ^ k ∧
        rb.size + vs.length ≤ rb.capacity * 2 ^ k ∧
        ∀ j, 1 ≤ j → j < k → rb.capacity * 2 ^ j < rb.size + vs.length) ∧
    (∀ (T : Type) [Inhabited T] (rb : RB T), Inv rb → 0 < rb.size →
      (Dequeue rb).2.2.capacity
        = (if 1 < rb.capacity ∧ rb.size - 1 ≤ rb.capacity / 4
           then rb.capacity / 2 else rb.capacity)) ∧
    (Enqueue (New Nat none) (List.range 9)).capacity = 16 ∧
    (DequeueN (Enqueue (New Nat (some 16)) (List.range 5)) 1).2.capacity = 8 := by
  have heq : ∀ c m : Nat, c * 2 * 2 ^ m = c * 2 ^ (m + 1) := by
    intro c m; rw [Nat.pow_succ]; ring
  refine ⟨?_, ?_, ?_, ?_, ?_⟩
  · intro T _ rb vs hinv
    have hcap := (enqueue_spec hinv vs).2.2.1
    by_cases hgrow : rb.size + vs.length > rb.capacity
    · rw [if_pos hgrow] at hcap
      have hge := growCap_ge_self (c := rb.capacity * 2) (r := rb.size + vs.length)
        (by have := hinv.1; omega)
      constructor
      · intro hEq
        rw [hEq] at hcap
        have := hinv.1
        omega
      · intro hle
        omega
    · rw [if_neg hgrow] at hcap
      exact ⟨fun _ => by omega, fun _ => hcap⟩
  · intro T _ rb vs hinv hgrow
    have hcap := (enqueue_spec hinv vs).2.2.1
    rw [if_pos (by omega)] at hcap
    obtain ⟨k0, g1, g2, g3⟩ := growCap_spec (rb.capacity * 2) (rb.size + vs.length)
      (by have := hinv.1; omega)
    refine ⟨k0 + 1, by omega, by rw [hcap, g1, heq], by rw [← heq]; omega, ?_⟩
    intro j hj1 hj2
    match j, hj1 with
    | j' + 1, _ =>
      have := g3 j' (by omega)
      rw [← heq]
      omega
  · intro T _ rb hinv hpos
    exact (dequeue_spec hinv hpos).2.2.2.2.2
  · have hinv : Inv (New Nat none) := inv_new none
    have hcap := (enqueue_spec hinv (List.range 9)).2.2.1
    have h0 : (New Nat none).size = 0 := rfl
    have h8 : (New Nat none).capacity = 8 := rfl
    rw [h0, h8] at hcap
    norm_num at hcap
    rw [hcap, growCap_16_9]
  · decide

open RingBuf in
/-- Witness for `resize_thresholds`: its hypotheses hold, and its
general parts yield concrete consequences, at a capacity-5 buffer. -/
theorem resize_thresholds_witness :
    (Enqueue (New Nat (some 5)) [1, 2]).capacity = (New Nat (some 5)).capacity ∧
    (Dequeue (Enqueue (New Nat (some 5)) [1, 2])).2.2.capacity
      = (if 1 < (Enqueue (New Nat (some 5)) [1, 2]).capacity ∧
           (Enqueue (New Nat (some 5)) [1, 2]).size - 1
             ≤ (Enqueue (New Nat (some 5)) [1, 2]).capacity / 4
         then (Enqueue (New Nat (some 5)) [1, 2]).capacity / 2
         else (Enqueue (New Nat (some 5)) [1, 2]).capacity) := by
  constructor
  · exact (resize_thresholds.1 Nat (New Nat (some 5)) [1, 2] (by decide)).mpr (by decide)
  · exact resize_thresholds.2.2.1 Nat (Enqueue (New Nat (some 5)) [1, 2]) (by decide) (by decide)

/-! ## Set lemmas -/

namespace SetOps

variable {α : Type} [DecidableEq α]

theorem mem_mapInsert (l : List α) (a x : α) :
    x ∈ mapInsert l a ↔ x ∈ l ∨ x = a := by
  unfold mapInsert
  split
  · constructor
    · exact Or.inl
    · rintro (hx | rfl) <;> [exact hx; assumption]
  · simp

theorem nodup_mapInsert {l : List α} (h : l.Nodup) (a : α) : (mapInsert l a).Nodup := by
  unfold mapInsert
  split
  · exact h
  · rename_i ha
    rw [List.nodup_append]
    refine ⟨h, List.nodup_singleton a, ?_⟩
    intro x hx hxa
    rw [List.mem_singleton] at hxa
    exact ha (hxa ▸ hx)

theorem foldl_mapInsert_mem (l : List α) (x : α) :
    ∀ init : List α, x ∈ l.foldl mapInsert init ↔ x ∈ init ∨ x ∈ l := by
  induction l with
  | nil => simp
  | cons a l ih =>
    intro init
    rw [List.foldl_cons, ih, mem_mapInsert]
    constructor
    · rintro ((h | rfl) | h)
      · exact Or.inl h
      · exact Or.inr (by simp)
      · exact Or.inr (List.mem_cons_of_mem a h)
    · rintro (h | h)
      · exact Or.inl (Or.inl h)
      · rcases List.mem_cons.mp h with rfl | h
        · exact Or.inl (Or.inr rfl)
        · exact Or.inr h

theorem foldl_mapInsert_nodup (l : List α) :
    ∀ init : List α, init.Nodup → (l.foldl mapInsert init).Nodup := by
  induction l with
  | nil => exact fun _ h => h
  | cons a l ih =>
    intro init h
    exact ih (mapInsert init a) (nodup_mapInsert h a)

theorem foldl_interStep_mem (b l : List α) (x : α) :
    ∀ init : List α,
      x ∈ l.foldl (fun acc item => if item ∈ b then mapInsert acc item else acc) init
        ↔ x ∈ init ∨ (x ∈ l ∧ x ∈ b) := by
  induction l with
  | nil => simp
  | cons a l ih =>
    intro init
    rw [List.foldl_cons]
    by_cases hab : a ∈ b
    · rw [if_pos hab, ih, mem_mapInsert]
      constructor
      · rintro ((h | rfl) | ⟨h1, h2⟩) <;> simp [*]
      · rintro (h | ⟨h1, h2⟩)
        · exact Or.inl (Or.inl h)
        · rcases List.mem_cons.mp h1 with rfl | h1
          · exact Or.inl (Or.inr rfl)
          · exact Or.inr ⟨h1, h2⟩
    · rw [if_neg hab, ih]
      constructor
      · rintro (h | ⟨h1, h2⟩) <;> simp [*]
      · rintro (h | ⟨h1, h2⟩)
        · exact Or.inl h
        · rcases List.mem_cons.mp h1 with rfl | h1
          · exact absurd h2 hab
          · exact Or.inr ⟨h1, h2⟩

theorem foldl_diffStep_mem (b l : List α) (x : α) :
    ∀ init : List α,
      x ∈ l.foldl (fun acc item => if item ∈ b then acc else mapInsert acc item) init
        ↔ x ∈ init ∨ (x ∈ l ∧ x ∉ b) := by
  induction l with
  | nil => simp
  | cons a l ih =>
    intro init
    rw [List.foldl_cons]
    by_cases hab : a ∈ b
    · rw [if_pos hab, ih]
      constructor
      · rintro (h | ⟨h1, h2⟩) <;> simp [*]
      · rintro (h | ⟨h1, h2⟩)
        · exact Or.inl h
        · rcases List.mem_cons.mp h1 with rfl | h1
          · exact absurd hab h2
          · exact Or.inr ⟨h1, h2⟩
    · rw [if_neg hab, ih, mem_mapInsert]
      constructor
      · rintro ((h | rfl) | ⟨h1, h2⟩) <;> simp [*]
      · rintro (h | ⟨h1, h2⟩)
        · exact Or.inl (Or.inl h)
        · rcases List.mem_cons.mp h1 with rfl | h1
          · exact Or.inl (Or.inr rfl)
          · exact Or.inr ⟨h1, h2⟩

theorem foldl_interStep_nodup (b l : List α) :
    ∀ init : List α, init.Nodup →
      (l.foldl (fun acc item => if item ∈ b then mapInsert acc item else acc) init).Nodup := by
  induction l with
  | nil => exact fun _ h => h
  | cons a l ih =>
    intro init h
    rw [List.foldl_cons]
    split
    · exact ih _ (nodup_mapInsert h a)
    · exact ih _ h

theorem foldl_diffStep_nodup (b l : List α) :
    ∀ init : List α, init.Nodup →
      (l.foldl (fun acc item => if item ∈ b then acc else mapInsert acc item) init).Nodup := by
  induction l with
  | nil => exact fun _ h => h
  | cons a l ih =>
    intro init h
    rw [List.foldl_cons]
    split
    · exact ih _ h
    · exact ih _ (nodup_mapInsert h a)

theorem mem_union (s t : GoSet α) (x : α) :
    x ∈ (Union s t).items ↔ x ∈ s.items ∨ x ∈ t.items := by
  show x ∈ t.items.foldl mapInsert s.items ↔ _
  rw [foldl_mapInsert_mem]

theorem mem_intersection (s t : GoSet α) (x : α) :
    x ∈ (Intersection s t).items ↔ x ∈ s.items ∧ x ∈ t.items := by
  unfold Intersection
  by_cases h : Size t < Size s
  · rw [if_pos h]
    show x ∈ t.items.foldl _ [] ↔ _
    rw [foldl_interStep_mem]
    simp [and_comm]
  · rw [if_neg h]
    show x ∈ s.items.foldl _ [] ↔ _
    rw [foldl_interStep_mem]
    simp

theorem mem_difference (s t : GoSet α) (x : α) :
    x ∈ (Difference s t).items ↔ x ∈ s.items ∧ x ∉ t.items := by
  show x ∈ s.items.foldl _ [] ↔ _
  rw [foldl_diffStep_mem]
  simp

theorem mem_symmetricDifference (s t : GoSet α) (x : α) :
    x ∈ (SymmetricDifference s t).items
      ↔ (x ∈ s.items ∧ x ∉ t.items) ∨ (x ∈ t.items ∧ x ∉ s.items) := by
  show x ∈ t.items.foldl _ (s.items.foldl _ []) ↔ _
  rw [foldl_diffStep_mem, foldl_diffStep_mem]
  simp

theorem nodup_union {s t : GoSet α} (hs : SNodup s) : SNodup (Union s t) :=
  foldl_mapInsert_nodup t.items s.items hs

theorem nodup_intersection (s t : GoSet α) : SNodup (Intersection s t) := by
  unfold Intersection
  split
  · exact foldl_interStep_nodup _ _ [] List.nodup_nil
  · exact foldl_interStep_nodup _ _ [] List.nodup_nil

theorem toFinset_union (s t : GoSet α) :
    (Union s t).items.toFinset = s.items.toFinset ∪ t.items.toFinset := by
  ext x
  simp [mem_union]

theorem toFinset_intersection (s t : GoSet α) :
    (Intersection s t).items.toFinset = s.items.toFinset ∩ t.items.toFinset := by
  ext x
  simp [mem_intersection]

theorem union_card (s t : GoSet α) (hs : SNodup s) (ht : SNodup t) :
    Size (Union s t) = Size s + Size t - Size (Intersection s t) := by
  have h1 : Size (Union s t) = (Union s t).items.toFinset.card :=
    (List.toFinset_card_of_nodup (nodup_union hs)).symm
  have h2 : Size (Intersection s t) = (Intersection s t).items.toFinset.card :=
    (List.toFinset_card_of_nodup (nodup_intersection s t)).symm
  have h3 : Size s = s.items.toFinset.card := (List.toFinset_card_of_nodup hs).symm
  have h4 : Size t = t.items.toFinset.card := (List.toFinset_card_of_nodup ht).symm
  have hid := Finset.card_union_add_card_inter s.items.toFinset t.items.toFinset
  rw [h1, h2, h3, h4, toFinset_union, toFinset_intersection]
  omega

theorem subset_toFinset {s t : GoSet α} (h : IsSubsetOf s t = true) :
    s.items.toFinset ⊆ t.items.toFinset := by
  intro x hx
  rw [List.mem_toFinset] at hx ⊢
  unfold IsSubsetOf at h
  rw [List.all_eq_true] at h
  simpa using h x hx

end SetOps

/-! ## Claims C5-C6: set algebra -/

open SetOps in
/-- C5: set-algebra correctness — the four membership laws, the
concrete example A={1,2,3}, B={3,4,5}, and `|A∪B| = |A|+|B|-|A∩B|` for
well-formed (duplicate-free) sets. -/
theorem set_algebra_laws :
    (∀ (α : Type) [DecidableEq α] (A B : GoSet α) (x : α),
      x ∈ (Union A B).items ↔ x ∈ A.items ∨ x ∈ B.items) ∧
    (∀ (α : Type) [DecidableEq α] (A B : GoSet α) (x : α),
      x ∈ (Intersection A B).items ↔ x ∈ A.items ∧ x ∈ B.items) ∧
    (∀ (α : Type) [DecidableEq α] (A B : GoSet α) (x : α),
      x ∈ (Difference A B).items ↔ x ∈ A.items ∧ x ∉ B.items) ∧
    (∀ (α : Type) [DecidableEq α] (A B : GoSet α) (x : α),
      x ∈ (SymmetricDifference A B).items
        ↔ (x ∈ A.items ∧ x ∉ B.items) ∨ (x ∈ B.items ∧ x ∉ A.items)) ∧
    ((Union (SetFromSlice [1, 2, 3]) (SetFromSlice [3, 4, 5])).items.toFinset
        = ({1, 2, 3, 4, 5} : Finset Nat) ∧
      (Intersection (SetFromSlice [1, 2, 3]) (SetFromSlice [3, 4, 5])).items.toFinset
        = ({3} : Finset Nat) ∧
      (Difference (SetFromSlice [1, 2, 3]) (SetFromSlice [3, 4, 5])).items.toFinset
        = ({1, 2} : Finset Nat) ∧
      (SymmetricDifference (SetFromSlice [1, 2, 3]) (SetFromSlice [3, 4, 5])).items.toFinset
        = ({1, 2, 4, 5} : Finset Nat)) ∧
    (∀ (α : Type) [DecidableEq α] (A B : GoSet α), SNodup A → SNodup B →
      Size (Union A B) = Size A + Size B - Size (Intersection A B)) := by
  refine ⟨fun α _ => mem_union, fun α _ => mem_intersection, fun α _ => mem_difference,
    fun α _ => mem_symmetricDifference, by decide, fun α _ A B hA hB => union_card A B hA hB⟩

open SetOps in
/-- Witness for `set_algebra_laws`: the nodup hypotheses of the
cardinality law hold at A={1,2,3}, B={3,4,5}. -/
theorem set_algebra_laws_witness :
    Size (Union (SetFromSlice [1, 2, 3]) (SetFromSlice [3, 4, 5]))
      = Size (SetFromSlice ([1, 2, 3] : List Nat)) + Size (SetFromSlice [3, 4, 5])
        - Size (Intersection (SetFromSlice [1, 2, 3]) (SetFromSlice [3, 4, 5])) :=
  set_algebra_laws.2.2.2.2.2 Nat (SetFromSlice [1, 2, 3]) (SetFromSlice [3, 4, 5])
    (by decide) (by decide)

open SetOps in
/-- C6: `A.Equals(B)` returns true iff `A ⊆ B`, `B ⊆ A` and
`|A| = |B|`; the implementation's size comparison followed by the
one-directional element check decides exactly this relation. -/
theorem set_equals_law :
    ∀ (α : Type) [DecidableEq α] (A B : GoSet α), SNodup A → SNodup B →
      (EqualsSet A B = true
        ↔ (IsSubsetOf A B = true ∧ IsSubsetOf B A = true ∧ Size A = Size B)) := by
  intro α _ A B hA hB
  unfold EqualsSet
  constructor
  · intro h
    split at h
    · exact absurd h (by simp)
    · rename_i hsize
      have hsize' : Size A = Size B := by omega
      have hAB : IsSubsetOf A B = true := by
        unfold IsSubsetOf
        exact h
      have hsub := subset_toFinset hAB
      have hcards : B.items.toFinset.card ≤ A.items.toFinset.card := by
        rw [List.toFinset_card_of_nodup hA, List.toFinset_card_of_nodup hB]
        exact Nat.le_of_eq hsize'.symm
      have heq := Finset.eq_of_subset_of_card_le hsub hcards
      refine ⟨hAB, ?_, hsize'⟩
      unfold IsSubsetOf
      rw [List.all_eq_true]
      intro x hx
      have : x ∈ B.items.toFinset := List.mem_toFinset.mpr hx
      rw [← heq, List.mem_toFinset] at this
      simpa using this
  · rintro ⟨hAB, _, hsize⟩
    rw [if_neg (by omega)]
    unfold IsSubsetOf at hAB
    exact hAB

open SetOps in
/-- Witness for `set_equals_law` at A = {1,2}, B = {2,1}. -/
theorem set_equals_law_witness :
    EqualsSet (GoSet.mk [1, 2]) (GoSet.mk ([2, 1] : List Nat)) = true
      ↔ (IsSubsetOf (GoSet.mk [1, 2]) (GoSet.mk ([2, 1] : List Nat)) = true ∧
         IsSubsetOf (GoSet.mk [2, 1]) (GoSet.mk ([1, 2] : List Nat)) = true ∧
         Size (GoSet.mk ([1, 2] : List Nat)) = Size (GoSet.mk ([2, 1] : List Nat))) :=
  set_equals_law Nat (GoSet.mk [1, 2]) (GoSet.mk [2, 1]) (by decide) (by decide)

/-! ## Store frame lemmas -/

namespace SetStore

variable {α : Type} [DecidableEq α]

theorem insertAt_getMap_ne {st : Store α} {i k : Nat} (h : k ≠ i) (x : α) :
    getMap (insertAt st i x) k = getMap st k := by
  unfold insertAt getMap
  simp [List.getD_eq_getElem?_getD, List.getElem?_set_ne (Ne.symm h)]

theorem insertAt_length (st : Store α) (i : Nat) (x : α) :
    (insertAt st i x).maps.length = st.maps.length := by
  simp [insertAt]

theorem foldl_insertAt_frame (l : List α) (r : Nat) :
    ∀ st : Store α,
      (∀ k, k ≠ r →
        getMap (l.foldl (fun acc item => insertAt acc r item) st) k = getMap st k) ∧
      (l.foldl (fun acc item => insertAt acc r item) st).maps.length = st.maps.length := by
  induction l with
  | nil => exact fun st => ⟨fun _ _ => rfl, rfl⟩
  | cons a l ih =>
    intro st
    rw [List.foldl_cons]
    obtain ⟨ih1, ih2⟩ := ih (insertAt st r a)
    exact ⟨fun k hk => (ih1 k hk).trans (insertAt_getMap_ne hk a),
      ih2.trans (insertAt_length st r a)⟩

theorem foldl_insertAt_if_frame (m : List α) (l : List α) (r : Nat) :
    ∀ st : Store α,
      (∀ k, k ≠ r →
        getMap (l.foldl (fun acc item => if item ∈ m then insertAt acc r item else acc) st) k
          = getMap st k) ∧
      (l.foldl (fun acc item => if item ∈ m then insertAt acc r item else acc) st).maps.length
        = st.maps.length := by
  induction l with
  | nil => exact fun st => ⟨fun _ _ => rfl, rfl⟩
  | cons a l ih =>
    intro st
    rw [List.foldl_cons]
    by_cases hm : a ∈ m
    · rw [if_pos hm]
      obtain ⟨ih1, ih2⟩ := ih (insertAt st r a)
      exact ⟨fun k hk => (ih1 k hk).trans (insertAt_getMap_ne hk a),
        ih2.trans (insertAt_length st r a)⟩
    · rw [if_neg hm]
      exact ih st

theorem foldl_insertAt_ifnot_frame (m : List α) (l : List α) (r : Nat) :
    ∀ st : Store α,
      (∀ k, k ≠ r →
        getMap (l.foldl (fun acc item => if item ∈ m then acc else insertAt acc r item) st) k
          = getMap st k) ∧
      (l.foldl (fun acc item => if item ∈ m then acc else insertAt acc r item) st).maps.length
        = st.maps.length := by
  induction l with
  | nil => exact fun st => ⟨fun _ _ => rfl, rfl⟩
  | cons a l ih =>
    intro st
    rw [List.foldl_cons]
    by_cases hm : a ∈ m
    · rw [if_pos hm]
      exact ih st
    · rw [if_neg hm]
      obtain ⟨ih1, ih2⟩ := ih (insertAt st r a)
      exact ⟨fun k hk => (ih1 k hk).trans (insertAt_getMap_ne hk a),
        ih2.trans (insertAt_length st r a)⟩

theorem getMap_alloc_lt {st : Store α} {m : List α} {k : Nat} (h : k < st.maps.length) :
    getMap (alloc st m).1 k = getMap st k := by
  unfold alloc getMap
  simp [List.getD_eq_getElem?_getD, List.getElem?_append_left h]

theorem alloc_length (st : Store α) (m : List α) :
    (alloc st m).1.maps.length = st.maps.length + 1 := by
  simp [alloc]

theorem alloc_snd (st : Store α) (m : List α) : (alloc st m).2 = st.maps.length := rfl

/-- The frame property shared by the four algebra operations: the result
identity is the fresh one, exactly one map is added, and every
previously existing map — in particular both operands — is unchanged. -/
def FrameSpec (st : Store α) (out : Store α × Nat) : Prop :=
  out.2 = st.maps.length ∧
  out.1.maps.length = st.maps.length + 1 ∧
  ∀ k, k < st.maps.length → getMap out.1 k = getMap st k

theorem unionOp_frame (st : Store α) (i j : Nat) : FrameSpec st (unionOp st i j) := by
  simp only [unionOp, FrameSpec, alloc_snd]
  obtain ⟨f1, f2⟩ := foldl_insertAt_frame (getMap st j) st.maps.length (alloc st (getMap st i)).1
  refine ⟨trivial, by rw [f2, alloc_length], ?_⟩
  intro k hk
  rw [f1 k (by omega), getMap_alloc_lt hk]

theorem intersectionOp_frame (st : Store α) (i j : Nat) :
    FrameSpec st (intersectionOp st i j) := by
  simp only [intersectionOp, FrameSpec, alloc_snd]
  by_cases hswap : (getMap st j).length < (getMap st i).length
  · rw [if_pos hswap]
    obtain ⟨f1, f2⟩ :=
      foldl_insertAt_if_frame (getMap st i) (getMap st j) st.maps.length (alloc st []).1
    refine ⟨trivial, by rw [f2, alloc_length], ?_⟩
    intro k hk
    rw [f1 k (by omega), getMap_alloc_lt hk]
  · rw [if_neg hswap]
    obtain ⟨f1, f2⟩ :=
      foldl_insertAt_if_frame (getMap st j) (getMap st i) st.maps.length (alloc st []).1
    refine ⟨trivial, by rw [f2, alloc_length], ?_⟩
    intro k hk
    rw [f1 k (by omega), getMap_alloc_lt hk]

theorem differenceOp_frame (st : Store α) (i j : Nat) :
    FrameSpec st (differenceOp st i j) := by
  simp only [differenceOp, FrameSpec, alloc_snd]
  obtain ⟨f1, f2⟩ :=
    foldl_insertAt_ifnot_frame (getMap st j) (getMap st i) st.maps.length (alloc st []).1
  refine ⟨trivial, by rw [f2, alloc_length], ?_⟩
  intro k hk
  rw [f1 k (by omega), getMap_alloc_lt hk]

theorem symmetricDifferenceOp_frame (st : Store α) (i j : Nat) :
    FrameSpec st (symmetricDifferenceOp st i j) := by
  simp only [symmetricDifferenceOp, FrameSpec, alloc_snd]
  obtain ⟨g1, g2⟩ :=
    foldl_insertAt_ifnot_frame (getMap st j) (getMap st i) st.maps.length (alloc st []).1
  obtain ⟨f1, f2⟩ :=
    foldl_insertAt_ifnot_frame (getMap st i) (getMap st j) st.maps.length
      ((getMap st i).foldl
        (fun acc item => if item ∈ getMap st j then acc else insertAt acc st.maps.length item)
        (alloc st []).1)
  refine ⟨trivial, by rw [f2, g2, alloc_length], ?_⟩
  intro k hk
  rw [f1 k (by omega), g1 k (by omega), getMap_alloc_lt hk]

end SetStore

/-! ## Claim C7: algebra operations do not mutate their operands -/

open SetStore in
/-- C7: on the heap model, each of `Union`, `Intersection`,
`Difference` and `SymmetricDifference` leaves every pre-existing map —
in particular both operands — exactly as it was, and returns a freshly
allocated map whose identity differs from both operands; `IsSubsetOf`
and `Equals` leave the heap entirely untouched. -/
theorem set_ops_frame :
    ∀ (α : Type) [DecidableEq α] (st : Store α) (i j : Nat),
      i < st.maps.length → j < st.maps.length →
      (FrameSpec st (unionOp st i j) ∧ (unionOp st i j).2 ≠ i ∧ (unionOp st i j).2 ≠ j) ∧
      (FrameSpec st (intersectionOp st i j) ∧
        (intersectionOp st i j).2 ≠ i ∧ (intersectionOp st i j).2 ≠ j) ∧
      (FrameSpec st (differenceOp st i j) ∧
        (differenceOp st i j).2 ≠ i ∧ (differenceOp st i j).2 ≠ j) ∧
      (FrameSpec st (symmetricDifferenceOp st i j) ∧
        (symmetricDifferenceOp st i j).2 ≠ i ∧ (symmetricDifferenceOp st i j).2 ≠ j) ∧
      (isSubsetOfOp st i j).1 = st ∧
      (equalsOp st i j).1 = st := by
  intro α _ st i j hi hj
  have hu := unionOp_frame st i j
  have hn := intersectionOp_frame st i j
  have hd := differenceOp_frame st i j
  have hs := symmetricDifferenceOp_frame st i j
  exact ⟨⟨hu, by rw [hu.1]; omega, by rw [hu.1]; omega⟩,
    ⟨hn, by rw [hn.1]; omega, by rw [hn.1]; omega⟩,
    ⟨hd, by rw [hd.1]; omega, by rw [hd.1]; omega⟩,
    ⟨hs, by rw [hs.1]; omega, by rw [hs.1]; omega⟩, rfl, rfl⟩

open SetStore in
/-- Witness for `set_ops_frame` on a two-map heap. -/
theorem set_ops_frame_witness :
    (unionOp (Store.mk [[1, 2], [2, 3]]) 0 1).2 = 2 ∧
    getMap (unionOp (Store.mk ([[1, 2], [2, 3]] : List (List Nat))) 0 1).1 0 = [1, 2] ∧
    getMap (unionOp (Store.mk ([[1, 2], [2, 3]] : List (List Nat))) 0 1).1 1 = [2, 3] := by
  have h := set_ops_frame Nat (Store.mk [[1, 2], [2, 3]]) 0 1 (by decide) (by decide)
  obtain ⟨⟨⟨f1, _, f3⟩, _, _⟩, _⟩ := h
  exact ⟨f1, (f3 0 (by decide)).trans (by decide), (f3 1 (by decide)).trans (by decide)⟩

/-! ## Parallel map lemmas -/

namespace Slices

variable {T R : Type} [Inhabited T] [Inhabited R]

theorem foldl_set_length (res : List (Nat × R)) :
    ∀ init : List R,
      (res.foldl (fun items r => items.set r.1 r.2) init).length = init.length := by
  induction res with
  | nil => exact fun _ => rfl
  | cons p res ih =>
    intro init
    rw [List.foldl_cons, ih]
    simp

theorem foldl_set_not_mem {res : List (Nat × R)} {k : Nat} (h : ∀ p ∈ res, p.1 ≠ k) :
    ∀ init : List R,
      (res.foldl (fun items r => items.set r.1 r.2) init)[k]? = init[k]? := by
  induction res with
  | nil => exact fun _ => rfl
  | cons p res ih =>
    intro init
    rw [List.foldl_cons, ih fun q hq => h q (List.mem_cons_of_mem p hq)]
    exact List.getElem?_set_ne (h p (List.mem_cons_self p res))

theorem foldl_set_nodup_mem {res : List (Nat × R)} (hnd : (res.map Prod.fst).Nodup)
    {k : Nat} {v : R} (hm : (k, v) ∈ res) :
    ∀ init : List R, k < init.length →
      (res.foldl (fun items r => items.set r.1 r.2) init)[k]? = some v := by
  induction res with
  | nil => exact absurd hm (List.not_mem_nil (k, v))
  | cons p res ih =>
    intro init hk
    rw [List.foldl_cons]
    rcases List.mem_cons.mp hm with rfl | hm'
    · have hout : ∀ q ∈ res, q.1 ≠ (k, v).1 := by
        intro q hq hqk
        rw [List.map_cons, List.nodup_cons] at hnd
        exact hnd.1 (hqk ▸ List.mem_map_of_mem Prod.fst hq)
      rw [foldl_set_not_mem hout]
      exact List.getElem?_set_eq_of_lt v (by simpa using hk)
    · rw [List.map_cons, List.nodup_cons] at hnd
      exact ih hnd.2 hm' _ (by simpa using hk)

theorem jobResults_map_fst (s : List T) (f : T → R) :
    (jobResults s f).map Prod.fst = List.range s.length := by
  simp [jobResults, List.map_map, Function.comp_def]

theorem mem_jobResults (s : List T) (f : T → R) {k : Nat} (hk : k < s.length) :
    (k, f (s.getD k default)) ∈ jobResults s f := by
  unfold jobResults
  exact List.mem_map_of_mem _ (List.mem_range.mpr hk)

theorem assemble_of_perm {s : List T} {f : T → R} {res : List (Nat × R)}
    (hperm : res.Perm (jobResults s f)) :
    assemble s.length res = s.map f := by
  have hnd : (res.map Prod.fst).Nodup := by
    rw [(hperm.map Prod.fst).nodup_iff, jobResults_map_fst]
    exact List.nodup_range _
  unfold assemble
  apply List.ext_getElem?
  intro k
  by_cases hk : k < s.length
  · have hmem : (k, f (s.getD k default)) ∈ res :=
      hperm.mem_iff.mpr (mem_jobResults s f hk)
    rw [foldl_set_nodup_mem hnd hmem (List.replicate s.length default) (by simpa using hk)]
    rw [List.getElem?_map, List.getElem?_eq_getElem hk]
    simp [List.getD_eq_getElem?_getD, List.getElem?_eq_getElem hk]
  · have hL : (res.foldl (fun items r => items.set r.1 r.2)
        (List.replicate s.length default)).length ≤ k := by
      rw [foldl_set_length]
      simp
      omega
    have hR : (List.map f s).length ≤ k := by
      simp
      omega
    rw [List.getElem?_eq_none hL, List.getElem?_eq_none hR]

end Slices

/-! ## Claim C8: ParallelMap is equivalent to Map -/

open Slices in
/-- C8: for every input slice, function, and completion order of the
worker-pool results (the worker count — omitted, non-positive, or
positive — only influences that order, and the pool always has at least
one worker, so the delivered results are exactly a permutation of one
`(i, f s[i])` pair per index), `ParallelMap` returns a slice equal to
the sequential `Map`: `r[i] = f(s[i])` for every `i`, and an empty
input yields an empty result.  In particular, for input `[1..6]` and
`f x = x*2`, every completion order yields `[2,4,6,8,10,12]`. -/
theorem parallelMap_eq_map :
    (∀ (T R : Type) [Inhabited T] [Inhabited R] (s : List T) (f : T → R)
        (res : List (Nat × R)),
      res.Perm (jobResults s f) → ParallelMap s f res = Map s f) ∧
    (∀ (T R : Type) [Inhabited T] [Inhabited R] (f : T → R) (res : List (Nat × R)),
      ParallelMap [] f res = []) ∧
    Map [1, 2, 3, 4, 5, 6] (fun x => x * 2) = [2, 4, 6, 8, 10, 12] ∧
    ParallelMap [1, 2, 3, 4, 5, 6] (fun x => x * 2)
        ((jobResults [1, 2, 3, 4, 5, 6] (fun x => x * 2)).reverse)
      = [2, 4, 6, 8, 10, 12] := by
  refine ⟨?_, ?_, by decide, by decide⟩
  · intro T R _ _ s f res hperm
    unfold ParallelMap
    by_cases hs : s.length = 0
    · rw [if_pos hs]
      unfold Map
      rw [List.length_eq_zero] at hs
      rw [hs]
      rfl
    · rw [if_neg hs]
      exact assemble_of_perm hperm
  · intro T R _ _ f res
    rfl

open Slices in
/-- Witness for `parallelMap_eq_map`: a reversed completion order on a
three-element input reproduces the sequential map. -/
theorem parallelMap_eq_map_witness :
    ParallelMap [10, 20, 30] (fun x => x + 1)
        ((jobResults [10, 20, 30] (fun x => x + 1)).reverse)
      = Map ([10, 20, 30] : List Nat) (fun x => x + 1) :=
  parallelMap_eq_map.1 Nat Nat [10, 20, 30] (fun x => x + 1)
    ((jobResults [10, 20, 30] (fun x => x + 1)).reverse) (by decide)

/-! ## Claim C9: lock discipline of the concurrent wrappers -/

open Wrappers in
/-- C9 counterexample: it is not the case that every public wrapper
operation takes the exclusive lock when mutating and the shared lock
when reading — `SyncRingBuffer.Clone` (and the `FromSyncRingBuffer` /
`FromSyncQueue` conversions) take no lock at all, and several pure
reads take the exclusive lock. -/
theorem lock_discipline_violated :
    ¬ ∀ op : WrapperOp,
        lockMode op
          = (if isMutating op then LockMode.exclusive else LockMode.shared) := by
  decide

open Wrappers in
/-- C9 amended: every mutating wrapper operation does take the
exclusive lock for the full call, and the operations that take no lock
at all are exactly `SyncRingBuffer.Clone`, `RingBuffer.FromSyncRingBuffer`
and `Queue.FromSyncQueue`; a shared lock is only ever taken by
non-mutating operations (but some pure reads — `SyncRingBuffer`'s and
`SyncQueue`'s `Peek`/`ToSlice`, and `SyncQueue`'s `Clone`/`Equals` —
take the exclusive lock instead of the shared one). -/
theorem lock_discipline_amended :
    (∀ op : WrapperOp, isMutating op = true → lockMode op = LockMode.exclusive) ∧
    (∀ op : WrapperOp,
      lockMode op = LockMode.none
        ↔ (op = WrapperOp.rbClone ∨ op = WrapperOp.ringFromSyncRingBuffer ∨
           op = WrapperOp.queueFromSyncQueue)) ∧
    (∀ op : WrapperOp, lockMode op = LockMode.shared → isMutating op = false) ∧
    (∀ op : WrapperOp,
      (op = WrapperOp.rbPeek ∨ op = WrapperOp.rbToSlice ∨ op = WrapperOp.qPeek ∨
       op = WrapperOp.qToSlice ∨ op = WrapperOp.qClone ∨ op = WrapperOp.qEquals) →
      (isMutating op = false ∧ lockMode op = LockMode.exclusive)) := by
  decide

open Wrappers in
/-- Witness for `lock_discipline_amended`: `SyncSet.Push` is mutating
and takes the exclusive lock; `SyncRingBuffer.Clone` takes no lock;
`SyncRingBuffer.Peek` is a pure read that takes the exclusive lock. -/
theorem lock_discipline_amended_witness :
    lockMode WrapperOp.sPush = LockMode.exclusive ∧
    lockMode WrapperOp.rbClone = LockMode.none ∧
    (isMutating WrapperOp.rbPeek = false ∧ lockMode WrapperOp.rbPeek = LockMode.exclusive) := by
  refine ⟨lock_discipline_amended.1 WrapperOp.sPush rfl, ?_, ?_⟩
  · exact (lock_discipline_amended.2.1 WrapperOp.rbClone).mpr (Or.inl rfl)
  · exact lock_discipline_amended.2.2.2 WrapperOp.rbPeek (Or.inl rfl)

/-! ## Claim C10: empty-container reads -/

open RingBuf SetOps in
/-- C10: `Dequeue` and `Peek` on an empty ring buffer (the queue
delegates to the same methods), and `Pop` and `Peek` on an empty set,
return the zero value of the element type with `false` and leave the
container exactly unchanged; in the model all four are total functions,
mirroring that the Go code never panics on the empty case. -/
theorem empty_reads_not_found :
    (∀ (T : Type) [Inhabited T] (rb : RB T), rb.size = 0 →
      Dequeue rb = (default, false, rb) ∧ Peek rb = (default, false)) ∧
    (∀ (α : Type) [DecidableEq α] [Inhabited α] (s : GoSet α), s.items = [] →
      Pop s = (default, false, s) ∧ PeekSet s = (default, false)) := by
  constructor
  · intro T _ rb h
    constructor
    · unfold Dequeue
      rw [if_pos h]
    · unfold Peek
      rw [if_pos h]
  · intro α _ _ s h
    obtain ⟨items⟩ := s
    cases h
    exact ⟨rfl, rfl⟩

open RingBuf SetOps in
/-- Witness for `empty_reads_not_found` at a fresh buffer and set. -/
theorem empty_reads_not_found_witness :
    Dequeue (New Nat none) = (default, false, New Nat none) ∧
    Peek (New Nat none) = (default, false) ∧
    Pop (NewSet Nat) = (default, false, NewSet Nat) ∧
    PeekSet (NewSet Nat) = (default, false) := by
  obtain ⟨h1, h2⟩ := empty_reads_not_found.1 Nat (New Nat none) (by decide)
  obtain ⟨h3, h4⟩ := empty_reads_not_found.2 Nat (NewSet Nat) (by decide)
  exact ⟨h1, h2, h3, h4⟩

end ByteForge
